import Mathlib

/-!
Verification of the mana-cost engine of `magic/mana.py`.

Python strings are modelled as `List Char`; a token is a `List Char`.
Functions that can raise (`ParseError` alias `InvalidManaCostException`,
or Python's `ValueError` from `list.index`) return `Option`, with `none`
modelling the raised exception.  Python `float` arithmetic in `cmc` is
modelled exactly in `ℚ` (all contributions are multiples of 1/2).
-/

namespace Mana

/-! Definitions: the embedding of `magic/mana.py`. -/

/-- Character class `[0-9]` (the `DIGIT` regex). -/
def isDigitC (c : Char) : Bool := '0' ≤ c && c ≤ '9'

/-- Character class `[WURBGCS]` (the `COLOR` regex). -/
def isColorC (c : Char) : Bool :=
  c = 'W' || c = 'U' || c = 'R' || c = 'B' || c = 'G' || c = 'C' || c = 'S'

/-- Character class `[XYZ]` (the `X` regex). -/
def isXC (c : Char) : Bool := c = 'X' || c = 'Y' || c = 'Z'

/-- States of the tokenizer's finite-state machine in `parse`:
`START`, `DIGIT`, `COLOR`, `SLASH`, `HALF`, `SPECIAL-HYBRID`. -/
inductive Mode
  | start | digit | color | slash | half | hybrid
deriving DecidableEq

/-- One transition of the `parse` state machine: given the current mode,
the accumulator `tmp`, the emitted `tokens` and the next character,
return the updated `(mode, tmp, tokens)`, or `none` when the Python code
raises `InvalidManaCostException`.  This transcribes the `for c in
list(stripped)` body of `parse` branch by branch. -/
def step (mode : Mode) (tmp : List Char) (tokens : List (List Char)) (c : Char) :
    Option (Mode × List Char × List (List Char)) :=
  match mode with
  | .start =>
    if isDigitC c then some (.digit, tmp ++ [c], tokens)
    else if isColorC c then some (.color, tmp ++ [c], tokens)
    else if isXC c then some (.start, [], tokens ++ [[c]])
    else if c = 'H' then some (.half, tmp ++ [c], tokens)
    else none
  | .digit =>
    if isDigitC c then some (.digit, tmp ++ [c], tokens)
    else if isColorC c || isXC c then some (.color, [c], tokens ++ [tmp])
    else if c = '/' then some (.slash, tmp ++ [c], tokens)
    else none
  | .color =>
    if isColorC c then some (.color, [c], tokens ++ [tmp])
    else if c = '/' then some (.slash, tmp ++ [c], tokens)
    else none
  | .slash =>
    if c = 'P' then some (.start, [], tokens ++ [tmp ++ [c]])
    else if isColorC c then some (.hybrid, tmp ++ [c], tokens)
    else none
  | .half =>
    if isColorC c then some (.start, [], tokens ++ [tmp ++ [c]])
    else none
  | .hybrid =>
    if c = '/' then some (.slash, tmp ++ [c], tokens)
    else if isDigitC c then some (.digit, [c], tokens ++ [tmp])
    else if isColorC c then some (.color, [c], tokens ++ [tmp])
    else if isXC c then some (.start, [], tokens ++ [tmp] ++ [[c]])
    else if c = 'H' then some (.half, [c], tokens ++ [tmp])
    else none

/-- The character loop of `parse`; after the scan, a non-empty
accumulator is emitted as the final token (`if tmp: tokens.append(tmp)`). -/
def parseLoop (mode : Mode) (tmp : List Char) (tokens : List (List Char)) :
    List Char → Option (List (List Char))
  | [] => some (if tmp.isEmpty then tokens else tokens ++ [tmp])
  | c :: cs =>
    match step mode tmp tokens c with
    | none => none
    | some (m, t, tk) => parseLoop m t tk cs

/-- Preprocessing of `parse`: `s.replace('{', '').replace('}', '')`. -/
def stripBraces (s : List Char) : List Char :=
  (s.filter (fun c => c ≠ '\x7b')).filter (fun c => c ≠ '\x7d')

/-- The tokenizer `parse`: strip braces, then run the state machine from
`START` with empty accumulator and no tokens. -/
def parse (s : List Char) : Option (List (List Char)) :=
  parseLoop .start [] [] (stripBraces s)

/-- The regex `^[0-9]+$` of `generic`. -/
def generic (symbol : List Char) : Bool := !symbol.isEmpty && symbol.all isDigitC

/-- The regex `^[XYZ]$` of `variable` (named `variableSym` because
`variable` is reserved in Lean). -/
def variableSym : List Char → Bool
  | [c] => isXC c
  | _ => false

/-- The regex `^([WURBGCS]/)?[WURBGCS]/P$` of `phyrexian`. -/
def phyrexian : List Char → Bool
  | [a, s, p] => isColorC a && s = '/' && p = 'P'
  | [a, s1, b, s2, p] => isColorC a && s1 = '/' && isColorC b && s2 = '/' && p = 'P'
  | _ => false

/-- The regex `^[WURBGCS]/[WURBGCS](/P)?$` of `hybrid`. -/
def hybrid : List Char → Bool
  | [a, s, b] => isColorC a && s = '/' && isColorC b
  | [a, s1, b, s2, p] => isColorC a && s1 = '/' && isColorC b && s2 = '/' && p = 'P'
  | _ => false

/-- The regex `^2/[WURBGCS]$` of `twobrid`. -/
def twobrid : List Char → Bool
  | [t, s, a] => t = '2' && s = '/' && isColorC a
  | _ => false

/-- The regex `^H[WURBGCS]$` of `half`. -/
def half : List Char → Bool
  | [h, a] => h = 'H' && isColorC a
  | _ => false

/-- The regex `^[WURBGCS]$` of `colored`. -/
def colored : List Char → Bool
  | [a] => isColorC a
  | _ => false

/-- Python `int(symbol)` on an all-digit string: its decimal value. -/
def natOfDigits (t : List Char) : Nat :=
  t.foldl (fun acc c => 10 * acc + (c.toNat - '0'.toNat)) 0

/-- Per-symbol contribution inside the loop of `cmc`: the if/elif chain over
`generic`, `twobrid`, `half`, `variable`, `phyrexian or hybrid or colored`,
with the final `else` raising (`none`).  Float literals `2.0`, `0.5`, `0.0`,
`1.0` are modelled exactly in `ℚ`. -/
def cmcContrib (symbol : List Char) : Option ℚ :=
  if generic symbol then some (natOfDigits symbol : ℚ)
  else if twobrid symbol then some 2
  else if half symbol then some (1 / 2)
  else if variableSym symbol then some 0
  else if phyrexian symbol || hybrid symbol || colored symbol then some 1
  else none

/-- The accumulation loop of `cmc` (`total` starts at `0.0`). -/
def cmcLoop (total : ℚ) : List (List Char) → Option ℚ
  | [] => some total
  | symbol :: rest =>
    match cmcContrib symbol with
    | none => none
    | some v => cmcLoop (total + v) rest

/-- Function `cmc(mana_cost)`: tokenize, then fold the per-symbol contributions. -/
def cmc (mana_cost : List Char) : Option ℚ :=
  match parse mana_cost with
  | none => none
  | some symbols => cmcLoop 0 symbols

/-- Python `symbol.split('/')` on a list of characters. -/
def splitOnSlash : List Char → List (List Char)
  | [] => [[]]
  | c :: cs =>
    match splitOnSlash cs with
    | [] => [[c]]
    | h :: t => if c = '/' then [] :: h :: t else (c :: h) :: t

/-- The loop of `colored_symbols`, carrying the accumulators
`cs['required']` and `cs['also']` (lists of strings; each entry is a
one-character string for recognized symbols).  Branches follow the code:
`generic or variable` skip; `hybrid` appends `parts[0]` and `parts[1]` of
`symbol.split('/')` to `also`; `phyrexian` appends `symbol[0]`;
`twobrid` appends `parts[1]`; `colored` appends `symbol` to `required`;
otherwise `InvalidManaCostException` (`none`). -/
def coloredSymbolsLoop (req also : List (List Char)) :
    List (List Char) → Option (List (List Char) × List (List Char))
  | [] => some (req, also)
  | symbol :: rest =>
    if generic symbol || variableSym symbol then coloredSymbolsLoop req also rest
    else if hybrid symbol then
      coloredSymbolsLoop req
        (also ++ [(splitOnSlash symbol).getD 0 [], (splitOnSlash symbol).getD 1 []]) rest
    else if phyrexian symbol then coloredSymbolsLoop req (also ++ [symbol.take 1]) rest
    else if twobrid symbol then
      coloredSymbolsLoop req (also ++ [(splitOnSlash symbol).getD 1 []]) rest
    else if colored symbol then coloredSymbolsLoop (req ++ [symbol]) also rest
    else none

/-- Function `colored_symbols(symbols)`: returns the pair `(required, also)`. -/
def colored_symbols (symbols : List (List Char)) :
    Option (List (List Char) × List (List Char)) :=
  coloredSymbolsLoop [] [] symbols

/-- The fixed color wheel `positions = ['W', 'U', 'B', 'R', 'G']`
of `order_score`. -/
def wheel : List Char := ['W', 'U', 'B', 'R', 'G']

/-- Python `positions.index(symbol)` over the wheel; `none` models the
`ValueError` raised when the symbol is absent. -/
def wheelIndex (c : Char) : Option Nat := wheel.findIdx? (fun y => y = c)

/-- The distance-summing loop of `order_score`: from the current cycle
index, for each symbol take `distance = position - current`, adding 5 when
`position < current`, and advance `current`. -/
def distLoop (current : Nat) : List Char → Option Nat
  | [] => some 0
  | s :: rest =>
    match wheelIndex s with
    | none => none
    | some position =>
      match distLoop position rest with
      | none => none
      | some score =>
        some (score + (if position < current then position + 5 - current else position - current))

/-- Function `order_score(initial_symbols)`: drop `'C'`/`'S'`, score `0` when
nothing remains, else `score * 10 + positions.index(symbols[0])`. -/
def order_score (initial_symbols : List Char) : Option Nat :=
  match initial_symbols.filter (fun s => !(s = 'C' || s = 'S')) with
  | [] => some 0
  | s0 :: rest =>
    match wheelIndex s0 with
    | none => none
    | some c0 =>
      match distLoop c0 rest with
      | none => none
      | some score => some (score * 10 + c0)

/-- Total version of `order_score` used as the sort key (equal to
`order_score` whenever the latter succeeds; `order` only sorts when every
permutation's score succeeds). -/
def scoreD (p : List Char) : Nat := (order_score p).getD 0

/-- Enumeration of `itertools.permutations(symbols)` with explicit fuel
(the fuel is always the list length, making the recursion structural): at
each step pick the element at index `i = 0, 1, ...` in turn and prepend it
to every permutation of the remainder, matching itertools' documented
lexicographic-by-index emission order. -/
def permsAux : Nat → List Char → List (List Char)
  | _, [] => [[]]
  | 0, _ :: _ => []
  | n + 1, c :: cs =>
    (List.range (c :: cs).length).flatMap
      (fun i => (permsAux n ((c :: cs).eraseIdx i)).map
        (fun q => (c :: cs).getD i 'W' :: q))

/-- All permutations of `symbols` in `itertools.permutations` order. -/
def perms (symbols : List Char) : List (List Char) := permsAux symbols.length symbols

/-- Function `order(symbols) = list(sorted(permutations, key=order_score)[0])`:
Python's `sorted` is a stable sort by the key, modelled by the stable
`List.insertionSort` on the key comparison; `sorted` raises (`none`) when
the key function raises on some permutation. -/
def order (symbols : List Char) : Option (List Char) :=
  if (perms symbols).all (fun p => (order_score p).isSome) then
    (List.insertionSort (fun a b => scoreD a ≤ scoreD b) (perms symbols)).head?
  else none

/-- The fixed priority list `[None, 'C', 'S', 'W', 'U', 'B', 'R', 'G']` of
`sort_score`, with the leading `None` dropped: `positions.index(symbol)`
equals one plus the index in this list (a `Char` never equals `None`), and
`none` models the `ValueError` when the symbol is absent. -/
def sortIndex (c : Char) : Option Nat :=
  (['C', 'S', 'W', 'U', 'B', 'R', 'G'].findIdx? (fun y => y = c)).map (· + 1)

/-- The loop of `sort_score` over the reversed sequence with 1-based
positions: `score += positions.index(symbol) * 10 * i`. -/
def sortScoreLoop (i : Nat) : List Char → Option Nat
  | [] => some 0
  | c :: rest =>
    match sortIndex c with
    | none => none
    | some p =>
      match sortScoreLoop (i + 1) rest with
      | none => none
      | some score => some (score + p * 10 * i)

/-- Function `sort_score(symbols)`: enumerate `reversed(symbols)` from `i = 1`. -/
def sort_score (symbols : List Char) : Option Nat :=
  sortScoreLoop 1 symbols.reverse

/-- The seven classifier answers for one token, in source order. -/
def classifierFlags (t : List Char) : List Bool :=
  [generic t, variableSym t, phyrexian t, hybrid t, twobrid t, half t, colored t]

/-- How many of the seven classifier predicates accept the token. -/
def classifierCount (t : List Char) : Nat :=
  (classifierFlags t).foldr (fun b n => b.toNat + n) 0

/-- Per-token cost contribution as the spec words it, by textual shape:
a generic token (one or more decimal digits) contributes its decimal
numeric value, a two-brid token `2/A` contributes 2, a half token `HA`
contributes 1/2, a variable token contributes 0, and each Phyrexian
(`A/P`), hybrid (`A/B` or `A/B/P`) or simple colored (`A`) token
contributes 1; any other token has no contribution (`ParseError`). -/
def cmcSpecValue (t : List Char) : Option ℚ :=
  if t ≠ [] ∧ ∀ c ∈ t, isDigitC c = true then some (natOfDigits t : ℚ)
  else match t with
  | [x] => if isXC x then some 0 else if isColorC x then some 1 else none
  | [h, a] => if h = 'H' ∧ isColorC a = true then some (1 / 2) else none
  | [a, s, b] =>
    if s = '/' then
      if a = '2' ∧ isColorC b = true then some 2
      else if isColorC a = true ∧ b = 'P' then some 1
      else if isColorC a = true ∧ isColorC b = true then some 1
      else none
    else none
  | [a, s1, b, s2, p] =>
    if isColorC a = true ∧ s1 = '/' ∧ isColorC b = true ∧ s2 = '/' ∧ p = 'P' then some 1
    else none
  | _ => none

/-- Sum of the per-token contributions over a token sequence, failing as
soon as one token is unrecognized. -/
def sumContribs : List (List Char) → Option ℚ
  | [] => some 0
  | t :: rest =>
    match cmcSpecValue t, sumContribs rest with
    | some v, some s => some (v + s)
    | _, _ => none

/-- Per-token branch action of `colored_symbols` as a function: what one
pass of the loop body appends to `required` and `also`, or `none` when it
raises. -/
def codeContrib (symbol : List Char) : Option (List (List Char) × List (List Char)) :=
  if generic symbol || variableSym symbol then some ([], [])
  else if hybrid symbol then
    some ([], [(splitOnSlash symbol).getD 0 [], (splitOnSlash symbol).getD 1 []])
  else if phyrexian symbol then some ([], [symbol.take 1])
  else if twobrid symbol then some ([], [(splitOnSlash symbol).getD 1 []])
  else if colored symbol then some ([symbol], [])
  else none

/-- Per-token color policy as the spec words it, by textual shape:
generic and variable tokens contribute nothing; a hybrid token `A/B` or
`A/B/P` contributes both `A` and `B` to `also`; a Phyrexian token `A/P`
contributes `A` to `also`; a two-brid token `2/A` contributes `A` to
`also`; a simple colored token `A` contributes `A` to `required`; any
other token raises `ParseError`. -/
def colorContribSpec (t : List Char) : Option (List (List Char) × List (List Char)) :=
  if t ≠ [] ∧ ∀ c ∈ t, isDigitC c = true then some ([], [])
  else match t with
  | [x] =>
    if isXC x then some ([], [])
    else if isColorC x then some ([[x]], [])
    else none
  | [a, s, b] =>
    if s = '/' then
      if isColorC a = true ∧ isColorC b = true then some ([], [[a], [b]])
      else if isColorC a = true ∧ b = 'P' then some ([], [[a]])
      else if a = '2' ∧ isColorC b = true then some ([], [[b]])
      else none
    else none
  | [a, s1, b, s2, p] =>
    if isColorC a = true ∧ s1 = '/' ∧ isColorC b = true ∧ s2 = '/' ∧ p = 'P' then
      some ([], [[a], [b]])
    else none
  | _ => none

/-- Spec-side fold of the per-token color policy over a token sequence. -/
def colored_symbols_spec : List (List Char) → Option (List (List Char) × List (List Char))
  | [] => some ([], [])
  | t :: rest =>
    match colorContribSpec t, colored_symbols_spec rest with
    | some (r1, a1), some (r2, a2) => some (r1 ++ r2, a1 ++ a2)
    | _, _ => none

/-- Total version of `positions.index` over the wheel, used only to state
formulas (equal to the real index on wheel members). -/
def wheelIdxD (c : Char) : Nat := (wheelIndex c).getD 0

/-- The forward distance around the 5-cycle from `a` to `b` as the spec
words it: the index difference, plus 5 when that difference is negative. -/
def forwardDist (a b : Char) : ℤ :=
  ((wheelIdxD b : ℤ) - (wheelIdxD a : ℤ)) +
    (if (wheelIdxD b : ℤ) - (wheelIdxD a : ℤ) < 0 then 5 else 0)

/-- The score formula as the spec words it, over the already-stripped
symbol list: 0 when empty, else 10 times the sum of the forward distances
of consecutive pairs, plus the cycle index of the first color. -/
def wheelFormula (ws : List Char) : ℤ :=
  match ws with
  | [] => 0
  | s0 :: _ =>
    (((ws.zip ws.tail).map (fun ab => forwardDist ab.1 ab.2)).sum) * 10 + (wheelIdxD s0 : ℤ)

/-- Total version of `positions.index` over the sort priority list, used
only to state formulas. -/
def sortIdxD (c : Char) : Nat := (sortIndex c).getD 0

/-- First element attaining the minimal key, ties resolved towards the
front of the list: the head of any stable sort by that key. -/
def firstMinBy {α : Type} (k : α → Nat) : List α → Option α
  | [] => none
  | a :: rest =>
    match firstMinBy k rest with
    | none => some a
    | some m => if k a ≤ k m then some a else some m

/-! Theorems: the claims C1 to C10 and their supporting lemmas. -/

/-- Conservation of characters by one machine transition: the emitted
tokens plus the accumulator grow by exactly the consumed character, and
any transition into `START` clears the accumulator. -/
theorem step_flatten {mode : Mode} {tmp : List Char} {tokens : List (List Char)}
    {c : Char} {m : Mode} {t : List Char} {tk : List (List Char)}
    (h : step mode tmp tokens c = some (m, t, tk))
    (hstart : mode = .start → tmp = []) :
    tk.flatten ++ t = tokens.flatten ++ tmp ++ [c] ∧ (m = .start → t = []) := by
  cases mode <;>
    simp only [step] at h <;>
    split_ifs at h <;>
    simp only [Option.some.injEq, Prod.mk.injEq] at h <;>
    obtain ⟨rfl, rfl, rfl⟩ := h <;>
    simp_all [List.flatten_append, List.append_assoc]

/-- Conservation of characters along the whole scan: a successful run of
the loop flattens to the already-emitted tokens, the accumulator and the
remaining characters. -/
theorem parseLoop_flatten :
    ∀ (cs : List Char) (mode : Mode) (tmp : List Char) (tokens out : List (List Char)),
    parseLoop mode tmp tokens cs = some out → (mode = .start → tmp = []) →
    out.flatten = tokens.flatten ++ tmp ++ cs
  | [], mode, tmp, tokens, out, h, _ => by
    simp only [parseLoop] at h
    by_cases htmp : tmp.isEmpty
    · rw [if_pos htmp] at h
      obtain rfl := Option.some.inj h
      simp_all [List.isEmpty_iff]
    · rw [if_neg htmp] at h
      obtain rfl := Option.some.inj h
      simp [List.flatten_append, List.append_assoc]
  | c :: cs, mode, tmp, tokens, out, h, hstart => by
    simp only [parseLoop] at h
    cases hstep : step mode tmp tokens c with
    | none => rw [hstep] at h; exact absurd h (by simp)
    | some mtk =>
      obtain ⟨m, t, tk⟩ := mtk
      rw [hstep] at h
      obtain ⟨hcons, hst⟩ := step_flatten hstep hstart
      have ih := parseLoop_flatten cs m t tk out h hst
      rw [ih, hcons]
      simp [List.append_assoc]

/-- Preprocessing equality: `s.replace('{','').replace('}','')` equals a single filter dropping
both brace characters. -/
theorem stripBraces_eq (s : List Char) :
    stripBraces s = s.filter (fun c => !(c = '\x7b' || c = '\x7d')) := by
  rw [stripBraces, List.filter_filter]
  congr 1
  funext c
  by_cases h1 : c = '\x7b' <;> by_cases h2 : c = '\x7d' <;> simp [h1, h2]

/-- C1 (confirmed). Whenever `parse` succeeds, concatenating the returned
tokens in order with no separator reproduces exactly the input with all
brace characters removed: the tokens partition the brace-stripped input
with no leftover, dropped or overlapping characters. -/
theorem tokenize_roundtrip (s : List Char) (toks : List (List Char))
    (h : parse s = some toks) :
    toks.flatten = s.filter (fun c => !(c = '\x7b' || c = '\x7d')) := by
  rw [← stripBraces_eq]
  have := parseLoop_flatten (stripBraces s) .start [] [] toks h (fun _ => rfl)
  simpa using this

/-- Witness for C1 at the spec's example `"{2}{W/U}{X}"`. -/
theorem tokenize_roundtrip_witness :
    parse ['\x7b', '2', '\x7d', '\x7b', 'W', '/', 'U', '\x7d', '\x7b', 'X', '\x7d'] =
      some [['2'], ['W', '/', 'U'], ['X']] ∧
    [['2'], ['W', '/', 'U'], ['X']].flatten =
      ['\x7b', '2', '\x7d', '\x7b', 'W', '/', 'U', '\x7d', '\x7b', 'X', '\x7d'].filter
        (fun c => !(c = '\x7b' || c = '\x7d')) :=
  ⟨by decide, tokenize_roundtrip _ _ (by decide)⟩

/-- C2 (counterexample). The claim says `parse` raises `ParseError` on
`"{W/}"`; in fact the scan ends in the `SLASH` state with the non-empty
accumulator `"W/"`, which the final `if tmp: tokens.append(tmp)` emits,
so `parse` returns the token sequence `["W/"]` instead of raising. -/
theorem parse_unterminated_slash_no_error :
    parse ['\x7b', 'W', '/', '\x7d'] = some [['W', '/']] ∧
    parse ['\x7b', 'W', '/', '\x7d'] ≠ none := by
  constructor
  · decide
  · decide

/-- C2 (amended). `parse("{Q}")` raises `ParseError` (the `START` state
rejects `Q`), but the inputs ending in an unterminated slash state do not
raise: `parse("{W/}")` returns `["W/"]` and `parse("{2/}")` returns
`["2/"]` — the non-empty accumulator is emitted as the final token. -/
theorem parse_malformed_inputs :
    parse ['\x7b', 'Q', '\x7d'] = none ∧
    parse ['\x7b', 'W', '/', '\x7d'] = some [['W', '/']] ∧
    parse ['\x7b', '2', '/', '\x7d'] = some [['2', '/']] := by
  refine ⟨by decide, by decide, by decide⟩

/-- C10 (confirmed). `parse` accepts `"2X/P"`, returning `["2", "X/P"]`,
yet every classifier predicate is false on the token `"X/P"`, so `cmc`
raises `ParseError` on this tokenizer-accepted input, as does
`colored_symbols` on the returned token sequence. -/
theorem tokenizer_acceptance_not_classifiable :
    parse ['2', 'X', '/', 'P'] = some [['2'], ['X', '/', 'P']] ∧
    generic ['X', '/', 'P'] = false ∧
    variableSym ['X', '/', 'P'] = false ∧
    phyrexian ['X', '/', 'P'] = false ∧
    hybrid ['X', '/', 'P'] = false ∧
    twobrid ['X', '/', 'P'] = false ∧
    half ['X', '/', 'P'] = false ∧
    colored ['X', '/', 'P'] = false ∧
    cmc ['2', 'X', '/', 'P'] = none ∧
    colored_symbols [['2'], ['X', '/', 'P']] = none := by
  refine ⟨by decide, by decide, by decide, by decide, by decide, by decide, by decide,
    by decide, ?_, by decide⟩
  rw [cmc, (by decide : parse ['2', 'X', '/', 'P'] = some [['2'], ['X', '/', 'P']])]
  simp only [cmcLoop, cmcContrib,
    (by decide : generic ['2'] = true),
    (by decide : generic ['X', '/', 'P'] = false),
    (by decide : twobrid ['X', '/', 'P'] = false),
    (by decide : half ['X', '/', 'P'] = false),
    (by decide : variableSym ['X', '/', 'P'] = false),
    (by decide : phyrexian ['X', '/', 'P'] = false),
    (by decide : hybrid ['X', '/', 'P'] = false),
    (by decide : colored ['X', '/', 'P'] = false)]
  simp

theorem bnot_true {b : Bool} (h : ¬ b = true) : b = false := by
  cases b
  · rfl
  · exact absurd rfl h

theorem band_true_iff {a b : Bool} : (a && b) = true ↔ a = true ∧ b = true := by
  simp

theorem isColorC_cases {a : Char} (h : isColorC a = true) :
    a = 'W' ∨ a = 'U' ∨ a = 'R' ∨ a = 'B' ∨ a = 'G' ∨ a = 'C' ∨ a = 'S' := by
  simpa [isColorC, or_assoc] using h

theorem color_not_digit {a : Char} (h : isColorC a = true) : isDigitC a = false := by
  rcases isColorC_cases h with rfl | rfl | rfl | rfl | rfl | rfl | rfl <;> decide

theorem color_not_x {a : Char} (h : isColorC a = true) : isXC a = false := by
  rcases isColorC_cases h with rfl | rfl | rfl | rfl | rfl | rfl | rfl <;> decide

theorem color_ne_two {a : Char} (h : isColorC a = true) : a ≠ '2' := by
  rcases isColorC_cases h with rfl | rfl | rfl | rfl | rfl | rfl | rfl <;> decide

theorem x_not_digit {a : Char} (h : isXC a = true) : isDigitC a = false := by
  have : a = 'X' ∨ a = 'Y' ∨ a = 'Z' := by simpa [isXC, or_assoc] using h
  rcases this with rfl | rfl | rfl <;> decide

theorem generic_one (a : Char) : generic [a] = isDigitC a := by
  simp [generic]

theorem generic_two (a b : Char) : generic [a, b] = (isDigitC a && isDigitC b) := by
  simp [generic]

theorem generic_three (a b c : Char) :
    generic [a, b, c] = (isDigitC a && isDigitC b && isDigitC c) := by
  simp [generic, Bool.and_assoc]

theorem variableSym_one (a : Char) : variableSym [a] = isXC a := rfl

theorem phyrexian_three (a b c : Char) :
    phyrexian [a, b, c] = (isColorC a && b = '/' && c = 'P') := rfl

theorem phyrexian_five (a b c d e : Char) :
    phyrexian [a, b, c, d, e] =
      (isColorC a && b = '/' && isColorC c && d = '/' && e = 'P') := rfl

theorem hybrid_three (a b c : Char) :
    hybrid [a, b, c] = (isColorC a && b = '/' && isColorC c) := rfl

theorem hybrid_five (a b c d e : Char) :
    hybrid [a, b, c, d, e] =
      (isColorC a && b = '/' && isColorC c && d = '/' && e = 'P') := rfl

theorem twobrid_three (a b c : Char) :
    twobrid [a, b, c] = (a = '2' && b = '/' && isColorC c) := rfl

theorem half_two (a b : Char) : half [a, b] = (a = 'H' && isColorC b) := rfl

theorem colored_one (a : Char) : colored [a] = isColorC a := rfl

theorem classifierCount_eq (t : List Char) :
    classifierCount t =
      (generic t).toNat + (variableSym t).toNat + (phyrexian t).toNat +
      (hybrid t).toNat + (twobrid t).toNat + (half t).toNat + (colored t).toNat := by
  simp [classifierCount, classifierFlags]
  omega

/-- C3 (counterexample). On the token `"W/U/P"` both `phyrexian` (via the
optional `([WURBGCS]/)?` prefix) and `hybrid` (via the optional `(/P)?`
suffix) return true, so "at most one classifier predicate returns true"
fails. -/
theorem classifier_overlap_counterexample :
    phyrexian ['W', '/', 'U', '/', 'P'] = true ∧
    hybrid ['W', '/', 'U', '/', 'P'] = true ∧
    ¬ classifierCount ['W', '/', 'U', '/', 'P'] ≤ 1 := by
  refine ⟨by decide, by decide, by decide⟩

/-- C3 (amended). The seven classifier predicates are mutually exclusive —
at most one accepts any token — except on hybrid-Phyrexian tokens of shape
`color/color/P`, where exactly the two predicates `phyrexian` and `hybrid`
accept. -/
theorem classifier_mutual_exclusion (t : List Char) :
    classifierCount t ≤ 1 ∨
    (∃ a b, isColorC a = true ∧ isColorC b = true ∧ t = [a, '/', b, '/', 'P'] ∧
      phyrexian t = true ∧ hybrid t = true ∧ classifierCount t = 2) := by
  obtain _ | ⟨a, _ | ⟨b, _ | ⟨c, _ | ⟨d, _ | ⟨e, _ | ⟨f, r⟩⟩⟩⟩⟩⟩ := t
  · exact Or.inl (by decide)
  · -- single character: digit, variable and color classes are disjoint
    left
    rw [classifierCount_eq, generic_one, variableSym_one, colored_one]
    by_cases hc : isColorC a = true
    · simp [hc, color_not_digit hc, color_not_x hc, phyrexian, hybrid, twobrid, half]
    · by_cases hx : isXC a = true
      · simp [hx, x_not_digit hx, bnot_true hc, phyrexian, hybrid, twobrid, half]
      · simp only [bnot_true hc, bnot_true hx, phyrexian, hybrid, twobrid, half,
          Bool.toNat_false]
        cases isDigitC a <;> simp
  · -- two characters: only `generic` and `half` apply, and `H` is no digit
    left
    rw [classifierCount_eq, generic_two, half_two]
    by_cases ha : a = 'H'
    · subst ha
      simp only [(by decide : isDigitC 'H' = false), Bool.false_and, Bool.toNat_false,
        variableSym, phyrexian, hybrid, twobrid, colored]
      cases isColorC b <;> simp
    · simp only [decide_eq_false ha, Bool.false_and, Bool.toNat_false,
        variableSym, phyrexian, hybrid, twobrid, colored]
      cases (isDigitC a && isDigitC b) <;> simp
  · -- three characters: `phyrexian`, `hybrid`, `twobrid` all need the slash
    left
    rw [classifierCount_eq, generic_three, phyrexian_three, hybrid_three, twobrid_three]
    by_cases hb : b = '/'
    · subst hb
      simp only [(by decide : isDigitC '/' = false), Bool.and_false, Bool.false_and,
        Bool.toNat_false, (by decide : (('/' : Char) = '/' : Bool) = true), Bool.and_true,
        variableSym, half]
      by_cases hcP : c = 'P'
      · subst hcP
        simp only [(by decide : isColorC 'P' = false), Bool.and_false, Bool.toNat_false,
          (by decide : (('P' : Char) = 'P' : Bool) = true), Bool.and_true]
        cases isColorC a <;> simp [colored]
      · by_cases hcA : isColorC a = true
        · simp only [hcA, Bool.true_and, decide_eq_false hcP, Bool.toNat_false,
            decide_eq_false (color_ne_two hcA), Bool.false_and]
          cases isColorC c <;> simp [colored]
        · simp only [bnot_true hcA, Bool.false_and, Bool.toNat_false, colored]
          simpa using Bool.toNat_le _
    · simp only [decide_eq_false hb, Bool.and_false, Bool.false_and, Bool.and_true,
        Bool.toNat_false, variableSym, half]
      cases (isDigitC a && isDigitC b && isDigitC c) <;> simp [colored]
  · -- four characters: only `generic` can hold
    left
    rw [classifierCount_eq]
    simp only [variableSym, phyrexian, hybrid, twobrid, half, colored, Bool.toNat_false]
    cases generic [a, b, c, d] <;> simp
  · -- five characters: `phyrexian` and `hybrid` coincide on this shape
    by_cases hK : isColorC a = true ∧ b = '/' ∧ isColorC c = true ∧ d = '/' ∧ e = 'P'
    · obtain ⟨h1, rfl, h3, rfl, rfl⟩ := hK
      refine Or.inr ⟨a, c, h1, h3, rfl, by simp [phyrexian_five, h1, h3],
        by simp [hybrid_five, h1, h3], ?_⟩
      rw [classifierCount_eq, phyrexian_five, hybrid_five]
      have hg : generic [a, '/', c, '/', 'P'] = false := by
        simp [generic, (by decide : isDigitC '/' = false)]
      simp [hg, h1, h3, variableSym, twobrid, half, colored]
    · left
      have hP : phyrexian [a, b, c, d, e] = false := by
        rw [phyrexian_five, Bool.eq_false_iff]
        intro hcontra
        have : isColorC a = true ∧ b = '/' ∧ isColorC c = true ∧ d = '/' ∧ e = 'P' := by
          simpa [and_assoc] using hcontra
        exact hK this
      have hH : hybrid [a, b, c, d, e] = false := by
        rw [hybrid_five, ← phyrexian_five, hP]
      rw [classifierCount_eq, hP, hH]
      simp only [variableSym, twobrid, half, colored, Bool.toNat_false]
      cases generic [a, b, c, d, e] <;> simp
  · -- six or more characters: only `generic` can hold
    left
    rw [classifierCount_eq]
    simp only [variableSym, phyrexian, hybrid, twobrid, half, colored, Bool.toNat_false]
    cases generic (a :: b :: c :: d :: e :: f :: r) <;> simp

theorem color_ne_slash {a : Char} (h : isColorC a = true) : a ≠ '/' := by
  rcases isColorC_cases h with rfl | rfl | rfl | rfl | rfl | rfl | rfl <;> decide

theorem color_ne_modifier {a : Char} (h : isColorC a = true) : a ≠ 'P' := by
  rcases isColorC_cases h with rfl | rfl | rfl | rfl | rfl | rfl | rfl <;> decide

theorem generic_eq_true_iff (t : List Char) :
    generic t = true ↔ t ≠ [] ∧ ∀ c ∈ t, isDigitC c = true := by
  simp [generic, List.isEmpty_iff, List.all_eq_true]

theorem splitOnSlash_three {a b : Char} (ha : a ≠ '/') (hb : b ≠ '/') :
    splitOnSlash [a, '/', b] = [[a], [b]] := by
  simp [splitOnSlash, ha, hb]

theorem splitOnSlash_five {a b : Char} (ha : a ≠ '/') (hb : b ≠ '/') :
    splitOnSlash [a, '/', b, '/', 'P'] = [[a], [b], ['P']] := by
  simp [splitOnSlash, ha, hb]

/-- The if/elif dispatch of `cmc` agrees token-by-token with the
shape-described contribution of the spec. -/
theorem cmcContrib_eq_spec (t : List Char) : cmcContrib t = cmcSpecValue t := by
  by_cases hg : generic t = true
  · rw [cmcContrib, if_pos hg, cmcSpecValue.eq_def,
      if_pos ((generic_eq_true_iff t).mp hg)]
  · rw [cmcContrib, if_neg hg, cmcSpecValue.eq_def,
      if_neg (fun hh => hg ((generic_eq_true_iff t).mpr hh))]
    obtain _ | ⟨a, _ | ⟨b, _ | ⟨c, _ | ⟨d, _ | ⟨e, _ | ⟨f, r⟩⟩⟩⟩⟩⟩ := t
    · rfl
    · -- one character: `variable` or `colored`
      simp only [twobrid, half, variableSym_one, phyrexian, hybrid, colored_one,
        Bool.false_eq_true, if_false, Bool.false_or, Bool.or_false, Bool.or_self]
    · -- two characters: only `half`
      simp only [twobrid, half_two, variableSym, phyrexian, hybrid, colored,
        Bool.false_eq_true, if_false, Bool.false_or, Bool.or_false, Bool.or_self]
      by_cases hH : a = 'H'
      · subst hH
        by_cases hc : isColorC b = true
        · simp [hc]
        · simp [bnot_true hc, fun hand : ('H' : Char) = 'H' ∧ isColorC b = true =>
            hc hand.2]
      · simp only [decide_eq_false hH, Bool.false_and, Bool.false_eq_true, if_false]
        rw [if_neg (fun hand : a = 'H' ∧ isColorC b = true => hH hand.1)]
    · -- three characters: `twobrid`, `phyrexian` or `hybrid`
      simp only [twobrid_three, half, variableSym, phyrexian_three, hybrid_three, colored,
        Bool.false_eq_true, if_false, Bool.false_or, Bool.or_false, Bool.or_self]
      by_cases hs : b = '/'
      · subst hs
        simp only [(by decide : (('/' : Char) = '/' : Bool) = true), Bool.and_true,
          Bool.true_and]
        by_cases h2 : a = '2'
        · subst h2
          simp only [(by decide : isColorC '2' = false), Bool.false_and,
            Bool.false_eq_true, if_false, Bool.or_false, Bool.false_or,
            (by decide : (('2' : Char) = '2' : Bool) = true), Bool.true_and]
          by_cases hc : isColorC c = true
          · simp [hc]
          · simp [bnot_true hc, fun hand : ('2' : Char) = '2' ∧ isColorC c = true =>
              hc hand.2]
        · simp only [decide_eq_false h2, Bool.false_and, Bool.false_eq_true, if_false]
          rw [if_neg (fun hand : a = '2' ∧ isColorC c = true => h2 hand.1)]
          by_cases hcA : isColorC a = true
          · simp only [hcA, Bool.true_and, true_and, if_true]
            by_cases hP : c = 'P'
            · subst hP
              simp [(by decide : isColorC 'P' = false)]
            · simp only [decide_eq_false hP, Bool.or_false, Bool.false_eq_true, if_false,
                if_neg hP, Bool.false_or]
              simp
          · simp [bnot_true hcA,
              fun hand : isColorC a = true ∧ c = 'P' => hcA hand.1,
              fun hand : isColorC a = true ∧ isColorC c = true => hcA hand.1]
      · simp only [decide_eq_false hs, Bool.and_false, Bool.false_and,
          Bool.false_eq_true, if_false, Bool.or_self]
        rw [if_neg (fun hand : b = '/' => hs hand)]
    · -- four characters: nothing matches
      simp [twobrid, half, variableSym, phyrexian, hybrid, colored]
    · -- five characters: `phyrexian`/`hybrid` with the `/P` suffix
      simp only [twobrid, half, variableSym, phyrexian_five, hybrid_five, colored,
        Bool.false_eq_true, if_false, Bool.or_self, Bool.false_or, Bool.or_false]
      by_cases hK : isColorC a = true ∧ b = '/' ∧ isColorC c = true ∧ d = '/' ∧ e = 'P'
      · obtain ⟨h1, rfl, h3, rfl, rfl⟩ := hK
        simp [h1, h3]
      · have hfalse : (isColorC a && b = '/' && isColorC c && d = '/' && e = 'P') = false := by
          rw [Bool.eq_false_iff]
          intro hcontra
          exact hK (by simpa [and_assoc] using hcontra)
        simp only [hfalse, Bool.false_eq_true, if_false]
        rw [if_neg hK]
    · -- six or more characters: nothing matches
      simp [twobrid, half, variableSym, phyrexian, hybrid, colored]

theorem cmcLoop_eq_sumContribs (toks : List (List Char)) :
    ∀ total : ℚ, cmcLoop total toks = (sumContribs toks).map (fun s => total + s) := by
  induction toks with
  | nil => intro total; simp [cmcLoop, sumContribs]
  | cons t rest ih =>
    intro total
    rw [cmcLoop, cmcContrib_eq_spec]
    cases hv : cmcSpecValue t with
    | none => simp [sumContribs, hv]
    | some v =>
      simp only [sumContribs, hv, ih (total + v)]
      cases hs : sumContribs rest with
      | none => rfl
      | some s => simp [add_assoc]

/-- C4 (confirmed). `cmc` tokenizes its argument and returns the sum of
the per-token contributions described by shape in `cmcSpecValue` (generic
→ decimal value, two-brid → 2, half → 1/2, variable → 0, Phyrexian /
hybrid / simple colored → 1, anything else → `ParseError`); in particular
`cmc("{2}{W/U}{X}") = 3` and `cmc("{2/W}") = 2`. -/
theorem cmc_spec :
    (∀ s : List Char, cmc s =
      match parse s with
      | none => none
      | some toks => sumContribs toks) ∧
    cmc ['\x7b', '2', '\x7d', '\x7b', 'W', '/', 'U', '\x7d', '\x7b', 'X', '\x7d'] =
      some 3 ∧
    cmc ['\x7b', '2', '/', 'W', '\x7d'] = some 2 := by
  have hgen : ∀ s : List Char, cmc s =
      match parse s with
      | none => none
      | some toks => sumContribs toks := by
    intro s
    rw [cmc]
    cases parse s with
    | none => rfl
    | some toks =>
      simp only [cmcLoop_eq_sumContribs toks 0]
      cases sumContribs toks <;> simp
  refine ⟨hgen, ?_, ?_⟩
  · rw [hgen, (by decide : parse ['\x7b', '2', '\x7d', '\x7b', 'W', '/', 'U', '\x7d',
      '\x7b', 'X', '\x7d'] = some [['2'], ['W', '/', 'U'], ['X']])]
    simp only [sumContribs,
      (by decide : cmcSpecValue ['2'] = some ((2 : Nat) : ℚ)),
      (by decide : cmcSpecValue ['W', '/', 'U'] = some 1),
      (by decide : cmcSpecValue ['X'] = some 0)]
    norm_num
  · rw [hgen, (by decide : parse ['\x7b', '2', '/', 'W', '\x7d'] = some [['2', '/', 'W']])]
    simp only [sumContribs,
      (by decide : cmcSpecValue ['2', '/', 'W'] = some 2)]
    norm_num

theorem coloredSymbolsLoop_cons (req also : List (List Char)) (symbol : List Char)
    (rest : List (List Char)) :
    coloredSymbolsLoop req also (symbol :: rest) =
      match codeContrib symbol with
      | none => none
      | some (r1, a1) => coloredSymbolsLoop (req ++ r1) (also ++ a1) rest := by
  rw [coloredSymbolsLoop, codeContrib]
  split_ifs <;> simp

/-- The predicate dispatch of `colored_symbols` agrees token-by-token with
the shape-described color policy of the spec. -/
theorem codeContrib_eq_spec (t : List Char) : codeContrib t = colorContribSpec t := by
  by_cases hg : generic t = true
  · rw [codeContrib, colorContribSpec.eq_def,
      if_pos ((generic_eq_true_iff t).mp hg)]
    simp [hg]
  · rw [codeContrib, colorContribSpec.eq_def,
      if_neg (fun hh => hg ((generic_eq_true_iff t).mpr hh))]
    rw [bnot_true hg, Bool.false_or]
    obtain _ | ⟨a, _ | ⟨b, _ | ⟨c, _ | ⟨d, _ | ⟨e, _ | ⟨f, r⟩⟩⟩⟩⟩⟩ := t
    · rfl
    · -- one character: `variable` or `colored`
      simp only [variableSym_one, hybrid, phyrexian, twobrid, colored_one,
        Bool.false_eq_true, if_false]
    · -- two characters: nothing applies
      simp [variableSym, hybrid, phyrexian, twobrid, colored]
    · -- three characters: hybrid `A/B`, phyrexian `A/P` or two-brid `2/A`
      simp only [variableSym, hybrid_three, phyrexian_three, twobrid_three, colored,
        Bool.false_eq_true, if_false]
      by_cases hs : b = '/'
      case neg =>
        simp only [decide_eq_false hs, Bool.and_false, Bool.false_and,
          Bool.false_eq_true, if_false]
        rw [if_neg hs]
      case pos =>
        subst hs
        rw [if_pos rfl]
        simp only [eq_self_iff_true, decide_True, Bool.and_true, Bool.true_and]
        by_cases hP : c = 'P'
        · subst hP
          rw [if_neg (fun hand : isColorC a = true ∧ isColorC 'P' = true =>
              absurd hand.2 (by decide)),
            if_neg (fun hand : a = '2' ∧ isColorC 'P' = true => absurd hand.2 (by decide))]
          by_cases hca : isColorC a = true
          · rw [if_pos (⟨hca, rfl⟩ : isColorC a = true ∧ ('P' : Char) = 'P')]
            simp only [(by decide : isColorC 'P' = false), Bool.and_false,
              Bool.false_eq_true, if_false, hca, Bool.true_and,
              (by decide : ((('P') : Char) = 'P' : Bool) = true), if_true]
            rfl
          · rw [if_neg (fun hand : isColorC a = true ∧ ('P' : Char) = 'P' => hca hand.1)]
            simp only [(by decide : isColorC 'P' = false), Bool.and_false, bnot_true hca,
              Bool.false_and, Bool.false_eq_true, if_false]
        · rw [if_neg (fun hand : isColorC a = true ∧ c = 'P' => hP hand.2)]
          by_cases hca : isColorC a = true
          · rw [if_neg (fun hand : a = '2' ∧ isColorC c = true => color_ne_two hca hand.1)]
            by_cases hcc : isColorC c = true
            · rw [if_pos (⟨hca, hcc⟩ : isColorC a = true ∧ isColorC c = true),
                if_pos (by simp [hca, hcc] : (isColorC a && isColorC c) = true),
                splitOnSlash_three (color_ne_slash hca) (color_ne_slash hcc)]
              rfl
            · rw [if_neg (fun hand : isColorC a = true ∧ isColorC c = true => hcc hand.2),
                if_neg (fun hcontra : (isColorC a && isColorC c) = true =>
                  hcc (band_true_iff.mp hcontra).2),
                if_neg (fun hcontra : (isColorC a && decide (c = 'P')) = true =>
                  hP (by simpa using (band_true_iff.mp hcontra).2)),
                if_neg (fun hcontra : (decide (a = '2') && isColorC c) = true =>
                  hcc (band_true_iff.mp hcontra).2)]
          · rw [if_neg (fun hand : isColorC a = true ∧ isColorC c = true => hca hand.1),
              if_neg (fun hcontra : (isColorC a && isColorC c) = true =>
                hca (band_true_iff.mp hcontra).1),
              if_neg (fun hcontra : (isColorC a && decide (c = 'P')) = true =>
                hca (band_true_iff.mp hcontra).1)]
            by_cases h2 : a = '2'
            · subst h2
              by_cases hcc : isColorC c = true
              · rw [if_pos (⟨rfl, hcc⟩ : ('2' : Char) = '2' ∧ isColorC c = true),
                  if_pos (by rw [hcc]; decide : (decide (('2' : Char) = '2') && isColorC c) = true),
                  splitOnSlash_three (by decide) (color_ne_slash hcc)]
                rfl
              · rw [if_neg (fun hand : ('2' : Char) = '2' ∧ isColorC c = true => hcc hand.2),
                  if_neg (fun hcontra : (decide (('2' : Char) = '2') && isColorC c) = true =>
                    hcc (band_true_iff.mp hcontra).2)]
            · rw [if_neg (fun hand : a = '2' ∧ isColorC c = true => h2 hand.1),
                if_neg (fun hcontra : (decide (a = '2') && isColorC c) = true =>
                  h2 (by simpa using (band_true_iff.mp hcontra).1))]
    · -- four characters: nothing applies
      simp [variableSym, hybrid, phyrexian, twobrid, colored]
    · -- five characters: hybrid-Phyrexian `A/B/P`
      simp only [variableSym, hybrid_five, phyrexian_five, twobrid, colored,
        Bool.false_eq_true, if_false]
      by_cases hK : isColorC a = true ∧ b = '/' ∧ isColorC c = true ∧ d = '/' ∧ e = 'P'
      · obtain ⟨h1, rfl, h3, rfl, rfl⟩ := hK
        rw [if_pos (by rw [h1, h3]; decide :
            (isColorC a && decide (('/' : Char) = '/') && isColorC c &&
              decide (('/' : Char) = '/') && decide (('P' : Char) = 'P')) = true),
          if_pos (by exact ⟨h1, rfl, h3, rfl, rfl⟩),
          splitOnSlash_five (color_ne_slash h1) (color_ne_slash h3)]
        rfl
      · have hfalse : (isColorC a && b = '/' && isColorC c && d = '/' && e = 'P') = false := by
          rw [Bool.eq_false_iff]
          intro hcontra
          exact hK (by simpa [and_assoc] using hcontra)
        simp only [hfalse, Bool.false_eq_true, if_false]
        rw [if_neg hK]
    · -- six or more characters: nothing applies
      simp [variableSym, hybrid, phyrexian, twobrid, colored]

theorem coloredSymbolsLoop_eq (toks : List (List Char)) :
    ∀ req also : List (List Char), coloredSymbolsLoop req also toks =
      (colored_symbols_spec toks).map (fun ra => (req ++ ra.1, also ++ ra.2)) := by
  induction toks with
  | nil => intro req also; simp [coloredSymbolsLoop, colored_symbols_spec]
  | cons t rest ih =>
    intro req also
    rw [coloredSymbolsLoop_cons, codeContrib_eq_spec]
    cases hv : colorContribSpec t with
    | none => simp [colored_symbols_spec, hv]
    | some ra =>
      obtain ⟨r1, a1⟩ := ra
      simp only [colored_symbols_spec, hv, ih (req ++ r1) (also ++ a1)]
      cases hs : colored_symbols_spec rest with
      | none => rfl
      | some rs =>
        obtain ⟨r2, a2⟩ := rs
        simp [List.append_assoc]

/-- C5 (confirmed). `colored_symbols` implements exactly the per-token
policy described by shape in `colorContribSpec` (generic/variable →
nothing; hybrid `A/B` or `A/B/P` → `A` and `B` into `also`; Phyrexian
`A/P` → `A` into `also`; two-brid `2/A` → `A` into `also`; colored `A` →
`A` into `required`; otherwise `ParseError`); in particular on the single
token `"W/U/P"` the result is `required = []` and `also = [W, U]`. -/
theorem colored_symbols_spec_correct :
    (∀ toks, colored_symbols toks = colored_symbols_spec toks) ∧
    colored_symbols [['W', '/', 'U', '/', 'P']] = some ([], [['W'], ['U']]) := by
  have hgen : ∀ toks, colored_symbols toks = colored_symbols_spec toks := by
    intro toks
    rw [colored_symbols, coloredSymbolsLoop_eq]
    cases colored_symbols_spec toks with
    | none => rfl
    | some ra =>
      obtain ⟨r1, a1⟩ := ra
      simp
  exact ⟨hgen, by decide⟩

theorem wheelIndex_valid {c : Char} (h : isColorC c = true) (hcs : ¬(c = 'C' ∨ c = 'S')) :
    ∃ i, wheelIndex c = some i ∧ i < 5 := by
  rcases isColorC_cases h with rfl | rfl | rfl | rfl | rfl | rfl | rfl
  · exact ⟨0, by decide, by decide⟩
  · exact ⟨1, by decide, by decide⟩
  · exact ⟨3, by decide, by decide⟩
  · exact ⟨2, by decide, by decide⟩
  · exact ⟨4, by decide, by decide⟩
  · exact absurd (Or.inl rfl) hcs
  · exact absurd (Or.inr rfl) hcs

theorem distLoop_formula :
    ∀ (ws : List Char) (a : Char),
    (∀ c ∈ ws, ∃ i, wheelIndex c = some i ∧ i < 5) →
    (∃ i, wheelIndex a = some i ∧ i < 5) →
    ∃ m : Nat, distLoop (wheelIdxD a) ws = some m ∧
      (m : ℤ) = (((a :: ws).zip ws).map (fun ab => forwardDist ab.1 ab.2)).sum
  | [], a, _, _ => ⟨0, rfl, by simp⟩
  | s :: rest, a, hws, ha => by
    obtain ⟨p, hp, hp5⟩ := hws s (List.mem_cons_self s rest)
    obtain ⟨i, hi, hi5⟩ := ha
    obtain ⟨m, hm, hmz⟩ := distLoop_formula rest s
      (fun c hc => hws c (List.mem_cons_of_mem s hc)) ⟨p, hp, hp5⟩
    have hcur : wheelIdxD a = i := by rw [wheelIdxD, hi]; rfl
    have hps : wheelIdxD s = p := by rw [wheelIdxD, hp]; rfl
    refine ⟨m + (if p < i then p + 5 - i else p - i), ?_, ?_⟩
    · have hm' : distLoop p rest = some m := by rw [← hps]; exact hm
      simp only [distLoop, hp, hm', hcur]
    · have hfd : (forwardDist a s : ℤ) = ((p : ℤ) - i) + (if (p : ℤ) - i < 0 then 5 else 0) := by
        rw [forwardDist, hcur, hps]
      push_cast
      rw [hmz]
      simp only [List.zip_cons_cons, List.map_cons, List.sum_cons, hfd]
      by_cases hlt : p < i
      · rw [if_pos hlt, if_pos (by omega)]
        have : i ≤ p + 5 := by omega
        push_cast [this]
        omega
      · rw [if_neg hlt, if_neg (by omega)]
        have : i ≤ p := by omega
        push_cast [this]
        omega

/-- Main content of C7: `order_score` succeeds on `WURBGCS` symbols and
computes the consecutive-pair wheel-distance formula. -/
theorem order_score_succeeds (l : List Char) (h : ∀ c ∈ l, isColorC c = true) :
    ∃ n : Nat, order_score l = some n ∧
      (n : ℤ) = wheelFormula (l.filter (fun s => !(s = 'C' || s = 'S'))) := by
  have hws : ∀ c ∈ l.filter (fun s => !(s = 'C' || s = 'S')),
      ∃ i, wheelIndex c = some i ∧ i < 5 := by
    intro c hc
    rw [List.mem_filter] at hc
    refine wheelIndex_valid (h c hc.1) ?_
    have := hc.2
    simp only [Bool.not_eq_true', Bool.or_eq_false_iff, decide_eq_false_iff_not] at this
    exact fun hor => hor.elim this.1 this.2
  rw [order_score]
  cases hf : l.filter (fun s => !(s = 'C' || s = 'S')) with
  | nil => exact ⟨0, rfl, by simp [wheelFormula]⟩
  | cons s0 rest =>
    rw [hf] at hws
    obtain ⟨c0, hc0, hc05⟩ := hws s0 (List.mem_cons_self s0 rest)
    obtain ⟨m, hm, hmz⟩ := distLoop_formula rest s0
      (fun c hc => hws c (List.mem_cons_of_mem s0 hc)) ⟨c0, hc0, hc05⟩
    have hcur : wheelIdxD s0 = c0 := by rw [wheelIdxD, hc0]; rfl
    rw [hcur] at hm
    refine ⟨m * 10 + c0, by simp only [hc0, hm], ?_⟩
    rw [wheelFormula]
    simp only [List.tail_cons]
    push_cast
    rw [hmz, hcur]

/-- C7 (confirmed). On symbol sequences over `{W,U,B,R,G,C,S}`,
`order_score` succeeds and returns exactly the spec formula: strip `C` and
`S`; if nothing remains the score is 0; otherwise sum over consecutive
pairs the forward distance around the 5-cycle `W U B R G` (index
difference, plus 5 when negative), multiply by 10, and add the cycle index
of the first remaining color. -/
theorem order_score_formula (l : List Char) (h : ∀ c ∈ l, isColorC c = true) :
    ∃ n : Nat, order_score l = some n ∧
      (n : ℤ) = wheelFormula (l.filter (fun s => !(s = 'C' || s = 'S'))) :=
  order_score_succeeds l h

/-- Witness for C7 at the concrete sequence `['C', 'G', 'W', 'U']`. -/
theorem order_score_formula_witness :
    ∃ n : Nat, order_score ['C', 'G', 'W', 'U'] = some n ∧
      (n : ℤ) = wheelFormula (['C', 'G', 'W', 'U'].filter
        (fun s => !(s = 'C' || s = 'S'))) :=
  order_score_formula ['C', 'G', 'W', 'U'] (by decide)

theorem sortIndex_valid {c : Char} (h : isColorC c = true) :
    ∃ i, sortIndex c = some i ∧ 1 ≤ i := by
  rcases isColorC_cases h with rfl | rfl | rfl | rfl | rfl | rfl | rfl
  · exact ⟨3, by decide, by decide⟩
  · exact ⟨4, by decide, by decide⟩
  · exact ⟨6, by decide, by decide⟩
  · exact ⟨5, by decide, by decide⟩
  · exact ⟨7, by decide, by decide⟩
  · exact ⟨1, by decide, by decide⟩
  · exact ⟨2, by decide, by decide⟩

theorem sortScoreLoop_formula :
    ∀ (ws : List Char) (i : Nat),
    (∀ c ∈ ws, ∃ p, sortIndex c = some p ∧ 1 ≤ p) →
    sortScoreLoop i ws =
      some (((ws.zip (List.range' i ws.length)).map
        (fun ci => sortIdxD ci.1 * 10 * ci.2)).sum)
  | [], i, _ => by simp [sortScoreLoop]
  | c :: rest, i, hws => by
    obtain ⟨p, hp, _⟩ := hws c (List.mem_cons_self c rest)
    have hrec := sortScoreLoop_formula rest (i + 1)
      (fun x hx => hws x (List.mem_cons_of_mem c hx))
    have hpd : sortIdxD c = p := by rw [sortIdxD, hp]; rfl
    rw [sortScoreLoop, hp, hrec]
    simp only [List.length_cons, List.range'_succ, List.zip_cons_cons, List.map_cons,
      List.sum_cons, hpd]
    rw [Nat.add_comm]

/-- C9 (confirmed). On symbol sequences over the priority list,
`sort_score` succeeds and equals the sum, over the reversed sequence with
1-based positions `i`, of (index of the symbol in the fixed priority list
`[none, C, S, W, U, B, R, G]`) * 10 * `i`. -/
theorem sort_score_formula (l : List Char) (h : ∀ c ∈ l, isColorC c = true) :
    sort_score l =
      some (((l.reverse.zip (List.range' 1 l.reverse.length)).map
        (fun ci => sortIdxD ci.1 * 10 * ci.2)).sum) := by
  rw [sort_score]
  exact sortScoreLoop_formula l.reverse 1
    (fun c hc => sortIndex_valid (h c (List.mem_reverse.mp hc)))

/-- Witness for C9 at the concrete sequence `['W', 'U', 'G']`. -/
theorem sort_score_formula_witness :
    sort_score ['W', 'U', 'G'] =
      some (((['W', 'U', 'G'].reverse.zip
        (List.range' 1 ['W', 'U', 'G'].reverse.length)).map
        (fun ci => sortIdxD ci.1 * 10 * ci.2)).sum) :=
  sort_score_formula ['W', 'U', 'G'] (by decide)

/-- An occurrence index for a list member, agreeing with `List.erase` on
removal: the first index holding `x`. -/
theorem exists_idx_of_mem {x : Char} :
    ∀ {l : List Char}, x ∈ l →
    ∃ i, i < l.length ∧ l.getD i 'W' = x ∧ l.eraseIdx i = l.erase x := by
  intro l hx
  induction l with
  | nil => cases hx
  | cons a t ih =>
    by_cases hax : a = x
    · subst hax
      exact ⟨0, by simp, rfl, by simp⟩
    · have hxt : x ∈ t := by
        rcases List.mem_cons.mp hx with h | h
        · exact absurd h.symm hax
        · exact h
      obtain ⟨i, hi, hg, he⟩ := ih hxt
      refine ⟨i + 1, by simpa using hi, by simpa using hg, ?_⟩
      rw [List.eraseIdx_cons_succ, he, List.erase_cons_tail (by simpa using hax)]

theorem perm_getD_cons_eraseIdx (l : List Char) (i : Nat) (hi : i < l.length) :
    (l.getD i 'W' :: l.eraseIdx i).Perm l := by
  rw [List.eraseIdx_eq_take_drop_succ]
  refine List.Perm.trans List.perm_middle.symm ?_
  have hg : l.getD i 'W' = l[i] := by
    rw [List.getD_eq_getElem?_getD, List.getElem?_eq_getElem hi]
    rfl
  rw [hg, List.getElem_cons_drop l i hi, List.take_append_drop]

/-- Every list produced by the permutation enumerator is a permutation of
the input. -/
theorem permsAux_sound :
    ∀ (n : Nat) (l p : List Char), l.length ≤ n → p ∈ permsAux n l → p.Perm l
  | _, [], p, _, hp => by
    rw [permsAux] at hp
    rw [List.mem_singleton.mp hp]
  | 0, c :: cs, _, hlen, _ => by simp at hlen
  | n + 1, c :: cs, p, hlen, hp => by
    rw [permsAux] at hp
    simp only [List.mem_flatMap, List.mem_map, List.mem_range] at hp
    obtain ⟨i, hi, q, hq, rfl⟩ := hp
    have hlen2 : ((c :: cs).eraseIdx i).length ≤ n := by
      rw [List.length_eraseIdx_of_lt hi]
      simp only [List.length_cons] at hlen ⊢
      omega
    exact ((permsAux_sound n _ q hlen2 hq).cons _).trans
      (perm_getD_cons_eraseIdx (c :: cs) i hi)

/-- Every permutation of the input appears in the enumerator's output. -/
theorem permsAux_complete :
    ∀ (n : Nat) (l p : List Char), l.length ≤ n → p.Perm l → p ∈ permsAux n l
  | n, l, [], _, hperm => by
    have := hperm.nil_eq.symm
    subst this
    rw [permsAux]
    exact List.mem_singleton.mpr rfl
  | n, l, x :: q, hlen, hperm => by
    have hx : x ∈ l := hperm.subset (List.mem_cons_self x q)
    obtain ⟨i, hi, hg, he⟩ := exists_idx_of_mem hx
    have hq : q.Perm (l.erase x) :=
      (hperm.trans (List.perm_cons_erase hx)).cons_inv
    cases l with
    | nil => cases hx
    | cons c cs =>
      cases n with
      | zero => simp at hlen
      | succ n =>
        rw [permsAux]
        simp only [List.mem_flatMap, List.mem_map, List.mem_range]
        refine ⟨i, hi, q, ?_, by rw [hg]⟩
        refine permsAux_complete n _ q ?_ (by rw [he]; exact hq)
        rw [List.length_eraseIdx_of_lt hi]
        simp only [List.length_cons] at hlen ⊢
        omega

theorem perms_sound {l p : List Char} (hp : p ∈ perms l) : p.Perm l :=
  permsAux_sound l.length l p le_rfl hp

theorem perms_complete {l p : List Char} (hp : p.Perm l) : p ∈ perms l :=
  permsAux_complete l.length l p le_rfl hp

/-- Totality: `order_score` succeeds on any sequence of `WURBGCS` symbols. -/
theorem order_score_isSome {p : List Char} (h : ∀ c ∈ p, isColorC c = true) :
    (order_score p).isSome = true := by
  obtain ⟨n, hn, _⟩ := order_score_succeeds p h
  rw [hn]
  rfl

theorem firstMinBy_mem {α : Type} (k : α → Nat) :
    ∀ (l : List α) (m : α), firstMinBy k l = some m → m ∈ l
  | [], m, h => by simp [firstMinBy] at h
  | a :: rest, m, h => by
    rw [firstMinBy] at h
    split at h
    · exact (Option.some.inj h) ▸ List.mem_cons_self a rest
    · rename_i m' hr
      split at h
      · exact (Option.some.inj h) ▸ List.mem_cons_self a rest
      · exact (Option.some.inj h) ▸
          List.mem_cons_of_mem a (firstMinBy_mem k rest m' hr)

/-- Head of the stable insertion sort by a key: exactly the first minimum
of the input, which is what `sorted(..., key=...)[0]` returns in Python. -/
theorem head_insertionSort_eq_firstMinBy {α : Type} (k : α → Nat) (l : List α) :
    (List.insertionSort (fun a b => k a ≤ k b) l).head? = firstMinBy k l := by
  induction l with
  | nil => rfl
  | cons a rest ih =>
    rw [List.insertionSort]
    cases hs : List.insertionSort (fun a b => k a ≤ k b) rest with
    | nil =>
      have hrest : rest = [] := by
        have hperm := List.perm_insertionSort (fun a b => k a ≤ k b) rest
        rw [hs] at hperm
        exact hperm.nil_eq.symm
      subst hrest
      rfl
    | cons m t =>
      have hfm : firstMinBy k rest = some m := by
        rw [← ih, hs]
        rfl
      have hR : firstMinBy k (a :: rest) = if k a ≤ k m then some a else some m := by
        rw [firstMinBy, hfm]
      rw [List.orderedInsert, hR]
      by_cases hle : k a ≤ k m
      · rw [if_pos hle, if_pos hle]
        rfl
      · rw [if_neg hle, if_neg hle]
        rfl

theorem firstMinBy_decomp {α : Type} (k : α → Nat) :
    ∀ (l₁ : List α) (r : α) (l₂ : List α),
    (∀ x ∈ l₁, k r < k x) → (∀ x ∈ l₂, k r ≤ k x) →
    firstMinBy k (l₁ ++ r :: l₂) = some r
  | [], r, l₂, _, h2 => by
    rw [List.nil_append]
    cases hm : firstMinBy k l₂ with
    | none => rw [firstMinBy, hm]
    | some m =>
      have hR : firstMinBy k (r :: l₂) = if k r ≤ k m then some r else some m := by
        rw [firstMinBy, hm]
      rw [hR, if_pos (h2 m (firstMinBy_mem k l₂ m hm))]
  | a :: l₁, r, l₂, h1, h2 => by
    rw [List.cons_append]
    have hR : firstMinBy k (a :: (l₁ ++ r :: l₂)) =
        if k a ≤ k r then some a else some r := by
      rw [firstMinBy,
        firstMinBy_decomp k l₁ r l₂ (fun x hx => h1 x (List.mem_cons_of_mem a hx)) h2]
    have ha := h1 a (List.mem_cons_self a l₁)
    rw [hR, if_neg (by omega)]

/-- Any nonempty list decomposes around its first key-minimal element:
everything before it is strictly larger, everything in the list is at
least it. -/
theorem exists_firstMin_decomp {α : Type} (k : α → Nat) :
    ∀ (l : List α), l ≠ [] →
    ∃ l₁ r l₂, l = l₁ ++ r :: l₂ ∧ (∀ x ∈ l₁, k r < k x) ∧ (∀ x ∈ l, k r ≤ k x)
  | [], h => absurd rfl h
  | a :: rest, _ => by
    by_cases hrest : rest = []
    · subst hrest
      exact ⟨[], a, [], rfl, by simp, by simp⟩
    · obtain ⟨l₁, r, l₂, heq, h1, h2⟩ := exists_firstMin_decomp k rest hrest
      by_cases har : k a ≤ k r
      · refine ⟨[], a, rest, rfl, by simp, ?_⟩
        intro x hx
        rcases List.mem_cons.mp hx with rfl | hx
        · exact le_refl _
        · exact le_trans har (h2 x hx)
      · refine ⟨a :: l₁, r, l₂, by rw [List.cons_append, heq], ?_, ?_⟩
        · intro x hx
          rcases List.mem_cons.mp hx with rfl | hx
          · omega
          · exact h1 x hx
        · intro x hx
          rcases List.mem_cons.mp hx with rfl | hx
          · omega
          · exact h2 x hx

/-- C6 (confirmed). On multisets of `WURBGCS` symbols, `order` returns a
permutation of its input whose `order_score` is minimal over all
permutations, and it is the first such permutation in the
`itertools.permutations` enumeration order: `perms l` splits as
`ps₁ ++ r :: ps₂` with every earlier permutation scoring strictly
higher. -/
theorem order_spec (l : List Char) (h : ∀ c ∈ l, isColorC c = true) :
    ∃ (r : List Char) (ps₁ ps₂ : List (List Char)),
      order l = some r ∧
      r.Perm l ∧
      perms l = ps₁ ++ r :: ps₂ ∧
      (∀ p ∈ ps₁, scoreD r < scoreD p) ∧
      (∀ p : List Char, p.Perm l → scoreD r ≤ scoreD p) := by
  have hvalid : ∀ p ∈ perms l, ∀ c ∈ p, isColorC c = true :=
    fun p hp c hc => h c ((perms_sound hp).subset hc)
  have hguard : (perms l).all (fun p => (order_score p).isSome) = true :=
    List.all_eq_true.mpr (fun p hp => order_score_isSome (hvalid p hp))
  have hne : perms l ≠ [] :=
    List.ne_nil_of_mem (perms_complete (List.Perm.refl l))
  obtain ⟨ps₁, r, ps₂, heq, h1, h2⟩ := exists_firstMin_decomp scoreD (perms l) hne
  have hhead : (List.insertionSort (fun a b => scoreD a ≤ scoreD b) (perms l)).head? =
      some r := by
    rw [head_insertionSort_eq_firstMinBy, heq]
    exact firstMinBy_decomp scoreD ps₁ r ps₂ h1
      (fun x hx => h2 x (heq ▸ List.mem_append_right ps₁ (List.mem_cons_of_mem r hx)))
  have hr_mem : r ∈ perms l := heq ▸ List.mem_append_right ps₁ (List.mem_cons_self r ps₂)
  refine ⟨r, ps₁, ps₂, ?_, perms_sound hr_mem, heq, h1, ?_⟩
  · rw [order, if_pos hguard, hhead]
  · exact fun p hp => h2 p (perms_complete hp)

/-- Witness for C6 at the concrete multiset `{'G', 'W', 'U'}`. -/
theorem order_spec_witness :
    ∃ (r : List Char) (ps₁ ps₂ : List (List Char)),
      order ['G', 'W', 'U'] = some r ∧
      r.Perm ['G', 'W', 'U'] ∧
      perms ['G', 'W', 'U'] = ps₁ ++ r :: ps₂ ∧
      (∀ p ∈ ps₁, scoreD r < scoreD p) ∧
      (∀ p : List Char, p.Perm ['G', 'W', 'U'] → scoreD r ≤ scoreD p) :=
  order_spec ['G', 'W', 'U'] (by decide)

/-- C8 (counterexample). `order` on the multiset `{'G','W','U'}` returns
`['G','W','U']` — score 24 (G→W wraps forward in 1 step, W→U is 1 step) —
and not `['W','U','G']`, whose score is 40 (W→U = 1, U→G = 3). -/
theorem order_gwu_counterexample :
    order ['G', 'W', 'U'] ≠ some ['W', 'U', 'G'] ∧
    order ['G', 'W', 'U'] = some ['G', 'W', 'U'] ∧
    order_score ['W', 'U', 'G'] = some 40 := by
  refine ⟨by decide, by decide, by decide⟩

/-- C8 (amended). `order({'G','W','U'})` returns `['G','W','U']`, the
ordering with minimal wheel distance: its score 24 (wrap-around distance
G→W = 1, then W→U = 1) is the minimum score over all six permutations of
the input, and the spec's expected `['W','U','G']` scores 40. -/
theorem order_gwu_amended :
    order ['G', 'W', 'U'] = some ['G', 'W', 'U'] ∧
    order_score ['G', 'W', 'U'] = some 24 ∧
    (perms ['G', 'W', 'U']).all (fun p => 24 ≤ scoreD p) = true ∧
    order_score ['W', 'U', 'G'] = some 40 := by
  refine ⟨by decide, by decide, by decide, by decide⟩

end Mana
